import Mathlib

/-!
Verification of the Portfolio Analytics Engine (FTPI backend).

Shallow embedding of `src/backend/app/market.py`, `src/backend/app/crud.py`
and `src/backend/app/main.py`.  Calendar dates are embedded as proleptic
Gregorian ordinals (`ℤ`): Python `date` comparison and `timedelta(days=n)`
arithmetic correspond to integer comparison and addition under `date.toordinal`.
Python floats are embedded as real numbers.  External effects are embedded as
explicit oracle parameters: the market fetch becomes a
`String → Except Unit (List PriceRow)` (an `Except.error` models an exception
escaping the fetch), the database rows for one user become a `List Txn`, and
the random number generator becomes an explicit stream of standard normal
draws (`random.gauss(m, s)` returns `m + s * z` for the next draw `z`).
-/

namespace FTPI

/-- A `{date, close}` row as produced by the market module. -/
structure PriceRow where
  date : ℤ
  close : ℝ

/-- Python `random.gauss(m, s)` applied to a standard normal draw `z`:
it returns `m + s * z`. -/
noncomputable def gauss (m s z : ℝ) : ℝ := m + s * z

/-- `market.daterange(start, end)`: every calendar day from `start` to `stop`
inclusive (empty when `stop < start`). -/
def daterange (start stop : ℤ) : List ℤ :=
  (List.range (stop - start + 1).toNat).map (fun i : ℕ => start + (i : ℤ))

/-- The loop body of `market.simulate_gbm` for indices `i ≥ 1`: each remaining
day multiplies the running price by `exp(gauss((mu−0.5σ²)·(1/252), σ·√(1/252)))`. -/
noncomputable def gbmSteps (draws : ℕ → ℝ) (mu sigma : ℝ) :
    ℝ → ℕ → List ℤ → List PriceRow
  | _, _, [] => []
  | price, i, d :: ds =>
      let p := price *
        Real.exp (gauss ((mu - 0.5 * sigma * sigma) * (1 / 252))
          (sigma * Real.sqrt (1 / 252)) (draws i))
      ⟨d, p⟩ :: gbmSteps draws mu sigma p (i + 1) ds

/-- `market.simulate_gbm(start, end, start_price, mu, sigma)`: the first day
keeps `start_price`, later days apply GBM shocks. -/
noncomputable def simulate_gbm (draws : ℕ → ℝ) (start stop : ℤ)
    (start_price mu sigma : ℝ) : List PriceRow :=
  match daterange start stop with
  | [] => []
  | d :: ds => ⟨d, start_price⟩ :: gbmSteps draws mu sigma start_price 1 ds

/-- The per-symbol body of `market.get_price_history`: fetch, filter to
`[start, stop]`, and fall back to `simulate_gbm(start, stop)` (with its default
arguments `100, 0.07, 0.2`) when the fetch raises or the filtered series is
empty. -/
noncomputable def price_series_for (fetch : String → Except Unit (List PriceRow))
    (draws : String → ℕ → ℝ) (start stop : ℤ) (sym : String) : List PriceRow :=
  match fetch sym with
  | .error _ => simulate_gbm (draws sym) start stop 100 0.07 0.2
  | .ok series =>
      let filtered := series.filter (fun r => decide (start ≤ r.date) && decide (r.date ≤ stop))
      if filtered.isEmpty then simulate_gbm (draws sym) start stop 100 0.07 0.2
      else filtered

/-- `market.get_price_history(symbols, start, end)`: one entry per symbol, each
produced independently by `price_series_for`. -/
noncomputable def get_price_history (fetch : String → Except Unit (List PriceRow))
    (draws : String → ℕ → ℝ) (symbols : List String) (start stop : ℤ) :
    List (String × List PriceRow) :=
  symbols.map (fun sym => (sym, price_series_for fetch draws start stop sym))

/-- `main.date_range(start, end)` (textually identical to `market.daterange`). -/
def date_range (start stop : ℤ) : List ℤ :=
  (List.range (stop - start + 1).toNat).map (fun i : ℕ => start + (i : ℤ))

/-- The inner lookup of `main.portfolio_value`: scan the series backward and
return the close of the first row with `date ≤ d`, else `0.0`. -/
noncomputable def lastPriceAtOrBefore (series : List PriceRow) (d : ℤ) : ℝ :=
  match series.reverse.find? (fun r => decide (r.date ≤ d)) with
  | some r => r.close
  | none => 0

/-- `main.portfolio_value`, with the database aggregates (`positions`, `cash`)
and the fetched `history` passed in explicitly. -/
noncomputable def portfolio_value (positions : List (String × ℝ)) (cash : ℝ)
    (history : String → List PriceRow) (as_of : ℤ) : List (ℤ × ℝ) :=
  if positions.isEmpty then [(as_of, cash)]
  else
    (date_range (as_of - 365) as_of).map (fun d =>
      (d, cash + (positions.map (fun p => p.2 * lastPriceAtOrBefore (history p.1) d)).sum))

/-- Python `datetime.date` restricted to the fields read by `cashflow`. -/
structure CalDate where
  year : ℕ
  month : ℕ
  day : ℕ
deriving DecidableEq

/-- One ledger row (the fields of `models.Transaction` read by the
aggregations), for a fixed user. -/
structure Txn where
  date : CalDate
  type : String
  amount : ℝ
  asset_symbol : Option String
  shares : Option ℝ

/-- The SQL `SUM(shares)` of `crud.get_positions` for one symbol: rows of type
`trade` carrying exactly that symbol; a NULL `shares` contributes nothing and
an all-NULL group collapses to `0.0` via `float(shares or 0.0)`. -/
noncomputable def sharesSum (txns : List Txn) (sym : String) : ℝ :=
  ((txns.filter (fun t => t.type == "trade" && t.asset_symbol == some sym)).map
    (fun t => t.shares.getD 0)).sum

/-- The distinct non-null symbols among a user's trades (the `GROUP BY` keys of
`crud.get_positions`). -/
def tradeSyms (txns : List Txn) : List String :=
  (txns.filterMap (fun t => if t.type == "trade" then t.asset_symbol else none)).dedup

/-- `crud.get_positions`: group trades by symbol and sum shares; the
comprehension `{... for symbol, shares in rows if symbol}` drops falsy keys,
i.e. the empty string. -/
noncomputable def get_positions (txns : List Txn) : List (String × ℝ) :=
  ((tradeSyms txns).filter (fun s => s != "")).map (fun s => (s, sharesSum txns s))

/-- `crud.get_cash_balance`: the income `SUM` minus the expense `SUM`, each
`or 0.0` on an empty result. -/
noncomputable def get_cash_balance (txns : List Txn) : ℝ :=
  ((txns.filter (fun t => t.type == "income")).map (fun t => t.amount)).sum
    - ((txns.filter (fun t => t.type == "expense")).map (fun t => t.amount)).sum

/-- Whether a transaction participates in `main.cashflow`. -/
def isCashflowType (t : Txn) : Bool :=
  t.type == "income" || t.type == "expense"

/-- The grouping key `(t.date.year, t.date.month)` of `main.cashflow`. -/
def monthKey (t : Txn) : ℕ × ℕ := (t.date.year, t.date.month)

/-- The keys of the `monthly` dict built by `main.cashflow`. -/
def monthKeys (txns : List Txn) : List (ℕ × ℕ) :=
  ((txns.filter isCashflowType).map monthKey).dedup

/-- Python tuple comparison on `(year, month)` keys, as used by
`sorted(monthly.keys())`: lexicographic. -/
def keyLE (a b : ℕ × ℕ) : Prop := a.1 < b.1 ∨ (a.1 = b.1 ∧ a.2 ≤ b.2)

instance : DecidableRel keyLE := fun a b =>
  inferInstanceAs (Decidable (a.1 < b.1 ∨ (a.1 = b.1 ∧ a.2 ≤ b.2)))

instance : IsTotal (ℕ × ℕ) keyLE := ⟨by intro a b; unfold keyLE; omega⟩

instance : IsTrans (ℕ × ℕ) keyLE := ⟨by intro a b c; unfold keyLE; omega⟩

/-- The accumulated `monthly[key]["income"]` of `main.cashflow`. -/
noncomputable def monthIncome (txns : List Txn) (k : ℕ × ℕ) : ℝ :=
  ((txns.filter (fun t => t.type == "income" && monthKey t == k)).map
    (fun t => t.amount)).sum

/-- The accumulated `monthly[key]["expense"]` of `main.cashflow`. -/
noncomputable def monthExpense (txns : List Txn) (k : ℕ × ℕ) : ℝ :=
  ((txns.filter (fun t => t.type == "expense" && monthKey t == k)).map
    (fun t => t.amount)).sum

/-- One output point of `main.cashflow` (its `date` is `date(y, m, 1)`). -/
structure CashflowPoint where
  date : CalDate
  income : ℝ
  expense : ℝ
  net : ℝ

/-- `main.cashflow`: bucket income/expense rows by `(year, month)`, then emit
the buckets in `sorted(monthly.keys())` order. -/
noncomputable def cashflow (txns : List Txn) : List CashflowPoint :=
  if txns.isEmpty then []
  else
    (List.insertionSort keyLE (monthKeys txns)).map (fun k =>
      ⟨⟨k.1, k.2, 1⟩, monthIncome txns k, monthExpense txns k,
        monthIncome txns k - monthExpense txns k⟩)

/-- The symbol loop of `main.allocation`: append `(s.upper(), shares*price)`
for each positive-valued position, in position order. -/
noncomputable def allocParts (prices : String → ℝ) : List (String × ℝ) → List (String × ℝ)
  | [] => []
  | (s, sh) :: rest =>
      if 0 < sh * prices s then (s.toUpper, sh * prices s) :: allocParts prices rest
      else allocParts prices rest

/-- `main.allocation`, with the database aggregates and last prices passed in
explicitly: a cash slice when `cash > 0`, then the symbol slices. -/
noncomputable def allocation (positions : List (String × ℝ)) (cash : ℝ)
    (prices : String → ℝ) : List (String × ℝ) :=
  (if 0 < cash then [("Cash", cash)] else []) ++ allocParts prices positions

/-- `main.monte_carlo`'s drift `means = (mu - 0.5*sigma*sigma) * dt` with
`dt = 1/12`. -/
noncomputable def mcMeans (mu sigma : ℝ) : ℝ := (mu - 0.5 * sigma * sigma) * (1 / 12)

/-- `main.monte_carlo`'s `stds = sigma * math.sqrt(dt)` with `dt = 1/12`. -/
noncomputable def mcStds (sigma : ℝ) : ℝ := sigma * Real.sqrt (1 / 12)

/-- The inner `simulate_path` of `main.monte_carlo`: start at `value`, apply
`n` multiplicative shocks `exp(random.gauss(means, stds))`, recording every
step including step 0. -/
noncomputable def simulate_path (means stds : ℝ) (z : ℕ → ℝ) (value : ℝ) :
    ℕ → List ℝ
  | 0 => [value]
  | n + 1 =>
      value :: simulate_path means stds (fun k => z (k + 1))
        (value * Real.exp (gauss means stds (z 0))) n

/-- `all_vals = [simulate_path() for _ in range(sims)]`, the `i`-th path using
the draw stream `z i`. -/
noncomputable def allPaths (initial mu sigma : ℝ) (periods sims : ℕ)
    (z : ℕ → ℕ → ℝ) : List (List ℝ) :=
  (List.range sims).map (fun i =>
    simulate_path (mcMeans mu sigma) (mcStds sigma) (z i) initial periods)

/-- The length of the shortest row, i.e. the number of tuples `zip(*rows)`
produces (`0` for no rows, matching `zip()`). -/
def minLen : List (List ℝ) → ℕ
  | [] => 0
  | [r] => r.length
  | r :: s :: rs => min r.length (minLen (s :: rs))

/-- Python `zip(*rows)`: the `j`-th tuple collects the `j`-th element of every
row, for `j` below every row length. -/
noncomputable def zipCols (rows : List (List ℝ)) : List (List ℝ) :=
  (List.range (minLen rows)).map (fun j => rows.map (fun row => row.getD j 0))

/-- Python `sorted` on floats: the ascending stable sort. -/
noncomputable def sortAsc (l : List ℝ) : List ℝ := l.insertionSort (· ≤ ·)

/-- `len(col)//2`, the median pick of `main.monte_carlo`. -/
def medianIdx (m : ℕ) : ℕ := m / 2

/-- `max(0, int(0.10 * (len(col)-1)))`, the p10 pick of `main.monte_carlo`
(exact-arithmetic form: truncation of a non-negative rational is division). -/
def p10Idx (m : ℕ) : ℕ := (m - 1) / 10

/-- `int(0.90 * (len(col)-1))`, the p90 pick of `main.monte_carlo`. -/
def p90Idx (m : ℕ) : ℕ := 9 * (m - 1) / 10

/-- The result triple of `main.monte_carlo`. -/
structure MCResult where
  median : List ℝ
  p10 : List ℝ
  p90 : List ℝ

/-- The columns `zip(*all_vals)` of `main.monte_carlo`. -/
noncomputable def mcCols (initial mu sigma : ℝ) (periods sims : ℕ)
    (z : ℕ → ℕ → ℝ) : List (List ℝ) :=
  zipCols (allPaths initial mu sigma periods sims z)

/-- `main.monte_carlo`: simulate `sims` paths of `periods` monthly steps and
reduce each time column to its median/p10/p90 order statistics. -/
noncomputable def monte_carlo (initial mu sigma : ℝ) (periods sims : ℕ)
    (z : ℕ → ℕ → ℝ) : MCResult :=
  ⟨(mcCols initial mu sigma periods sims z).map
      (fun col => (sortAsc col).getD (medianIdx col.length) 0),
    (mcCols initial mu sigma periods sims z).map
      (fun col => (sortAsc col).getD (p10Idx col.length) 0),
    (mcCols initial mu sigma periods sims z).map
      (fun col => (sortAsc col).getD (p90Idx col.length) 0)⟩

/-- The cross-section of the path values at time `t`. -/
noncomputable def crossSection (paths : List (List ℝ)) (t : ℕ) : List ℝ :=
  paths.map (fun p => p.getD t 0)

/-! ## General helper lemmas -/

theorem lookup_map_self {β : Type} (keys : List String) (f : String → β) (sym : String) :
    ((keys.map (fun s => (s, f s))).lookup sym)
      = if sym ∈ keys then some (f sym) else none := by
  induction keys with
  | nil => simp [List.lookup]
  | cons k ks ih =>
    by_cases h : sym = k
    · subst h; simp [List.lookup]
    · have hbeq : (sym == k) = false := by simp [h]
      simp [List.lookup, hbeq, ih, h]

theorem getLast?_cons_or {α : Type} (a : α) (xs : List α) :
    (a :: xs).getLast? = xs.getLast?.or (some a) := by
  cases xs with
  | nil => simp
  | cons b ys =>
    rw [List.getLast?_cons_cons]
    cases h : (b :: ys).getLast? with
    | none => simp_all
    | some v => simp

theorem find?_reverse_eq_getLast?_filter (l : List PriceRow) (p : PriceRow → Bool) :
    l.reverse.find? p = (l.filter p).getLast? := by
  induction l with
  | nil => simp
  | cons a l ih =>
    rw [List.reverse_cons, List.find?_append, ih, List.filter_cons]
    by_cases h : p a
    · simp [h, getLast?_cons_or]
    · simp [h]

theorem mem_tradeSyms (txns : List Txn) (sym : String) :
    sym ∈ tradeSyms txns ↔ ∃ t ∈ txns, t.type = "trade" ∧ t.asset_symbol = some sym := by
  simp only [tradeSyms, List.mem_dedup, List.mem_filterMap]
  constructor
  · rintro ⟨t, ht, hf⟩
    by_cases htr : t.type == "trade"
    · exact ⟨t, ht, by simpa using htr, by simpa [htr] using hf⟩
    · simp [htr] at hf
  · rintro ⟨t, ht, h1, h2⟩
    exact ⟨t, ht, by simp [h1, h2]⟩

/-! ## Claim theorems -/

/-- C2: the price history provider is total (it returns one series per
requested symbol, never an error); for each symbol independently, a fetch
exception or an empty filtered series is replaced by the synthetic GBM
fallback, a non-empty filtered series is returned as-is, and the entry for one
symbol depends only on that symbol's own fetch outcome and draws. -/
theorem price_history_fallback_spec (fetch fetch' : String → Except Unit (List PriceRow))
    (draws draws' : String → ℕ → ℝ) (symbols : List String) (start stop : ℤ)
    (sym : String) :
    ((get_price_history fetch draws symbols start stop).map Prod.fst = symbols)
    ∧ (sym ∈ symbols →
        (get_price_history fetch draws symbols start stop).lookup sym
          = some (price_series_for fetch draws start stop sym))
    ∧ (∀ e : Unit, fetch sym = .error e →
        price_series_for fetch draws start stop sym
          = simulate_gbm (draws sym) start stop 100 0.07 0.2)
    ∧ (∀ series : List PriceRow, fetch sym = .ok series →
        (series.filter (fun r => decide (start ≤ r.date) && decide (r.date ≤ stop)) = [] →
          price_series_for fetch draws start stop sym
            = simulate_gbm (draws sym) start stop 100 0.07 0.2)
        ∧ (series.filter (fun r => decide (start ≤ r.date) && decide (r.date ≤ stop)) ≠ [] →
          price_series_for fetch draws start stop sym
            = series.filter (fun r => decide (start ≤ r.date) && decide (r.date ≤ stop))))
    ∧ (fetch sym = fetch' sym → draws sym = draws' sym →
        price_series_for fetch draws start stop sym
          = price_series_for fetch' draws' start stop sym) := by
  refine ⟨?_, ?_, ?_, ?_, ?_⟩
  · simp [get_price_history, List.map_map, Function.comp_def]
  · intro hmem
    rw [get_price_history, lookup_map_self, if_pos hmem]
  · intro e he
    simp [price_series_for, he]
  · intro series hs
    constructor
    · intro hempty
      simp [price_series_for, hs, hempty]
    · intro hne
      simp [price_series_for, hs, List.isEmpty_iff, hne]
  · intro hf hd
    simp [price_series_for, hf, hd]

/-- Witness for C2: with one symbol whose fetch succeeds, the provider returns
an entry for it. -/
theorem price_history_fallback_spec_witness :
    (get_price_history (fun _ => .ok [⟨0, 1⟩]) (fun _ _ => 0) ["spy"] 0 0).lookup "spy"
      = some (price_series_for (fun _ => .ok [⟨0, 1⟩]) (fun _ _ => 0) 0 0 "spy") :=
  (price_history_fallback_spec (fun _ => .ok [⟨0, 1⟩]) (fun _ => .ok [⟨0, 1⟩])
    (fun _ _ => 0) (fun _ _ => 0) ["spy"] 0 0 "spy").2.1 (by simp)

/-- C7: `cashflow` buckets only income and expense transactions by
`(year, month)`; its output keys are exactly the months of such transactions,
in strictly ascending lexicographic order (months without them are omitted);
each bucket carries the income sum, the expense sum and their difference as
`net`; and an empty transaction set yields the empty sequence. -/
theorem cashflow_spec (txns : List Txn) :
    (txns = [] → cashflow txns = [])
    ∧ ((cashflow txns).map (fun p => (p.date.year, p.date.month))).Pairwise
        (fun a b : ℕ × ℕ => a.1 < b.1 ∨ (a.1 = b.1 ∧ a.2 < b.2))
    ∧ (∀ y m : ℕ,
        ((y, m) ∈ (cashflow txns).map (fun p => (p.date.year, p.date.month))) ↔
          ∃ t ∈ txns, (t.type = "income" ∨ t.type = "expense")
            ∧ t.date.year = y ∧ t.date.month = m)
    ∧ (∀ p ∈ cashflow txns,
        p.income = monthIncome txns (p.date.year, p.date.month)
        ∧ p.expense = monthExpense txns (p.date.year, p.date.month)
        ∧ p.net = p.income - p.expense
        ∧ p.date.day = 1) := by
  have heq : cashflow txns
      = (List.insertionSort keyLE (monthKeys txns)).map (fun k =>
          ⟨⟨k.1, k.2, 1⟩, monthIncome txns k, monthExpense txns k,
            monthIncome txns k - monthExpense txns k⟩) := by
    unfold cashflow
    by_cases h : txns.isEmpty
    · have h0 : txns = [] := List.isEmpty_iff.1 h
      subst h0
      simp [monthKeys]
    · simp [h]
  have hkeys : (cashflow txns).map (fun p => (p.date.year, p.date.month))
      = List.insertionSort keyLE (monthKeys txns) := by
    rw [heq, List.map_map]
    simp [Function.comp_def]
  have hmemMK : ∀ y m : ℕ, ((y, m) ∈ monthKeys txns ↔
      ∃ t ∈ txns, (t.type = "income" ∨ t.type = "expense")
        ∧ t.date.year = y ∧ t.date.month = m) := by
    intro y m
    simp only [monthKeys, List.mem_dedup, List.mem_map, List.mem_filter,
      isCashflowType, monthKey, Bool.or_eq_true, beq_iff_eq, Prod.mk.injEq]
    constructor
    · rintro ⟨t, ⟨ht, hty⟩, h1, h2⟩
      exact ⟨t, ht, hty, h1, h2⟩
    · rintro ⟨t, ht, hty, h1, h2⟩
      exact ⟨t, ⟨ht, hty⟩, h1, h2⟩
  refine ⟨?_, ?_, ?_, ?_⟩
  · intro h
    subst h
    rfl
  · rw [hkeys]
    have hs : List.Sorted keyLE (List.insertionSort keyLE (monthKeys txns)) :=
      List.sorted_insertionSort keyLE _
    have hn : (List.insertionSort keyLE (monthKeys txns)).Nodup :=
      ((List.perm_insertionSort keyLE _).nodup_iff).2 (List.nodup_dedup _)
    exact (hs.and hn).imp (fun h => by
      obtain ⟨hle, hne⟩ := h
      rcases hle with h1 | ⟨h1, h2⟩
      · exact Or.inl h1
      · refine Or.inr ⟨h1, ?_⟩
        have h3 : _ ≠ _ := fun hh => hne (Prod.ext_iff.2 ⟨h1, hh⟩)
        omega)
  · intro y m
    rw [hkeys, (List.perm_insertionSort keyLE (monthKeys txns)).mem_iff]
    exact hmemMK y m
  · intro p hp
    rw [heq] at hp
    obtain ⟨k, hk, rfl⟩ := List.mem_map.1 hp
    refine ⟨?_, ?_, rfl, rfl⟩ <;> simp

/-- C5: for every transaction set, `get_cash_balance` equals the sum of income
amounts minus the sum of expense amounts; inserting a trade or transfer
transaction anywhere never changes the result; the empty set yields `0.0`. -/
theorem cash_balance_spec (txns : List Txn) :
    get_cash_balance txns =
      ((txns.filter (fun t => t.type == "income")).map (fun t => t.amount)).sum -
        ((txns.filter (fun t => t.type == "expense")).map (fun t => t.amount)).sum
    ∧ (∀ pre post : List Txn, ∀ t : Txn, t.type = "trade" ∨ t.type = "transfer" →
        get_cash_balance (pre ++ t :: post) = get_cash_balance (pre ++ post))
    ∧ get_cash_balance ([] : List Txn) = 0 := by
  refine ⟨rfl, ?_, by simp [get_cash_balance]⟩
  intro pre post t h
  rcases h with h | h <;> simp [get_cash_balance, List.filter_append, h]

/-- Witness for C5 at a concrete ledger: a trade transaction inserted into the
empty ledger leaves the cash balance unchanged. -/
theorem cash_balance_spec_witness :
    get_cash_balance ([] ++ (⟨⟨2024, 1, 1⟩, "trade", 1500, some "aapl", some 10⟩ : Txn) :: [])
      = get_cash_balance ([] ++ []) :=
  (cash_balance_spec []).2.1 [] [] ⟨⟨2024, 1, 1⟩, "trade", 1500, some "aapl", some 10⟩
    (Or.inl rfl)

/-- C6 counterexample: a trade whose `asset_symbol` is the empty string `""` is
dropped by the dict comprehension `if symbol` in `crud.get_positions`, so the
map does not send the symbol `""` to its share total `1` as the claim states:
the lookup yields `none`. -/
theorem positions_empty_symbol_counterexample :
    (get_positions [⟨⟨2024, 1, 5⟩, "trade", 0, some "", some 1⟩]).lookup "" = none
    ∧ sharesSum [⟨⟨2024, 1, 5⟩, "trade", 0, some "", some 1⟩] "" = 1
    ∧ (⟨⟨2024, 1, 5⟩, "trade", 0, some "", some 1⟩ : Txn).type = "trade"
    ∧ (⟨⟨2024, 1, 5⟩, "trade", 0, some "", some 1⟩ : Txn).asset_symbol = some "" := by
  refine ⟨?_, ?_, rfl, rfl⟩
  · simp [get_positions, tradeSyms, List.lookup]
  · simp [sharesSum]

/-- C6 (amended): for every nonempty symbol, `get_positions` maps it to the sum
of shares over the user's trades with that symbol when such a trade exists, and
omits it otherwise; trades with a null, absent, or empty-string symbol are
excluded, and net-zero or negative totals are passed through unchanged. -/
theorem positions_map_spec (txns : List Txn) (sym : String) (hsym : sym ≠ "") :
    ((∃ t ∈ txns, t.type = "trade" ∧ t.asset_symbol = some sym) →
        (get_positions txns).lookup sym = some (sharesSum txns sym))
    ∧ ((¬ ∃ t ∈ txns, t.type = "trade" ∧ t.asset_symbol = some sym) →
        (get_positions txns).lookup sym = none) := by
  have hl : (get_positions txns).lookup sym
      = if sym ∈ (tradeSyms txns).filter (fun s => s != "")
        then some (sharesSum txns sym) else none :=
    lookup_map_self _ _ _
  constructor
  · intro hex
    rw [hl, if_pos]
    exact List.mem_filter.2 ⟨(mem_tradeSyms txns sym).2 hex, by simpa using hsym⟩
  · intro hnex
    rw [hl, if_neg]
    intro hmem
    exact hnex ((mem_tradeSyms txns sym).1 (List.mem_filter.1 hmem).1)

/-- Witness for the amended C6 at a concrete ledger holding one `aapl` trade. -/
theorem positions_map_spec_witness :
    (get_positions [⟨⟨2024, 1, 5⟩, "trade", 1500, some "aapl", some 10⟩]).lookup "aapl"
      = some (sharesSum [⟨⟨2024, 1, 5⟩, "trade", 1500, some "aapl", some 10⟩] "aapl") :=
  (positions_map_spec [⟨⟨2024, 1, 5⟩, "trade", 1500, some "aapl", some 10⟩] "aapl"
    (by decide)).1 ⟨⟨⟨2024, 1, 5⟩, "trade", 1500, some "aapl", some 10⟩, by simp, rfl, rfl⟩

/-- C3: `lastPriceAtOrBefore` returns the close of the last entry whose date is
at most `d`, and `0.0` when no entry qualifies; in particular, for a two-entry
ascending series `[(d1,c1),(d2,c2)]`, any `d` with `d1 ≤ d < d2` yields `c1`
and any `d < d1` yields `0.0`. -/
theorem last_price_lookup_spec :
    (∀ (series : List PriceRow) (d : ℤ),
        lastPriceAtOrBefore series d =
          match (series.filter (fun r => decide (r.date ≤ d))).getLast? with
          | some r => r.close
          | none => 0)
    ∧ (∀ (d1 d2 : ℤ) (c1 c2 : ℝ) (d : ℤ), d1 < d2 →
        (d1 ≤ d → d < d2 → lastPriceAtOrBefore [⟨d1, c1⟩, ⟨d2, c2⟩] d = c1)
        ∧ (d < d1 → lastPriceAtOrBefore [⟨d1, c1⟩, ⟨d2, c2⟩] d = 0)) := by
  constructor
  · intro series d
    rw [lastPriceAtOrBefore, find?_reverse_eq_getLast?_filter]
  · intro d1 d2 c1 c2 d h12
    constructor
    · intro hd1 hd2
      have h2 : ¬ (d2 ≤ d) := by omega
      simp [lastPriceAtOrBefore, h2, hd1]
    · intro hlt
      have h1 : ¬ (d1 ≤ d) := by omega
      have h2 : ¬ (d2 ≤ d) := by omega
      simp [lastPriceAtOrBefore, h1, h2]

/-- Witness for C3: on the series `[(0,5),(10,7)]` and query date `3`, the
lookup returns the earlier close `5`. -/
theorem last_price_lookup_spec_witness :
    lastPriceAtOrBefore [⟨0, 5⟩, ⟨10, 7⟩] 3 = 5 :=
  (last_price_lookup_spec.2 0 10 5 7 3 (by decide)).1 (by decide) (by decide)

/-- C4: with no positions the value series is the single point
`(as_of, cash)`; with positions it has one point per calendar day from
`as_of − 365` to `as_of` inclusive, in ascending date order. -/
theorem portfolio_value_series_spec (positions : List (String × ℝ)) (cash : ℝ)
    (history : String → List PriceRow) (as_of : ℤ) :
    (positions = [] → portfolio_value positions cash history as_of = [(as_of, cash)])
    ∧ (positions ≠ [] →
        (portfolio_value positions cash history as_of).length
            = (as_of - (as_of - 365)).toNat + 1
        ∧ (portfolio_value positions cash history as_of).map Prod.fst
            = date_range (as_of - 365) as_of
        ∧ ((portfolio_value positions cash history as_of).map Prod.fst).Pairwise (· < ·)) := by
  constructor
  · intro h
    simp [portfolio_value, h]
  · intro h
    have hne : positions.isEmpty = false := by
      simpa using h
    have hmap : (portfolio_value positions cash history as_of).map Prod.fst
        = date_range (as_of - 365) as_of := by
      simp [portfolio_value, hne, List.map_map, Function.comp_def]
    refine ⟨?_, hmap, ?_⟩
    · have h1 : (portfolio_value positions cash history as_of).length
          = (date_range (as_of - 365) as_of).length := by
        rw [← hmap, List.length_map]
      rw [h1]
      unfold date_range
      rw [List.length_map, List.length_range]
      omega
    · rw [hmap]
      unfold date_range
      rw [List.pairwise_map]
      exact (List.pairwise_lt_range _).imp (fun h => by omega)

/-- Witness for C4: the empty-positions branch gives the single cash point and
the one-position branch gives a series of `366` points. -/
theorem portfolio_value_series_spec_witness :
    portfolio_value [] 5 (fun _ => []) 0 = [((0 : ℤ), (5 : ℝ))]
    ∧ (portfolio_value [("aapl", 1)] 0 (fun _ => []) 0).length
        = ((0 : ℤ) - (0 - 365)).toNat + 1 :=
  ⟨(portfolio_value_series_spec [] 5 (fun _ => []) 0).1 rfl,
    ((portfolio_value_series_spec [("aapl", 1)] 0 (fun _ => []) 0).2 (by simp)).1⟩

/-- Witness for C7: the empty ledger yields the empty cashflow sequence. -/
theorem cashflow_spec_witness : cashflow [] = [] :=
  (cashflow_spec []).1 rfl

/-- C8: the allocation output is the cash slice exactly when `cash > 0`,
followed by one slice per held symbol in position order, a symbol being
included exactly when its `shares × price` value is positive. -/
theorem allocation_spec (positions : List (String × ℝ)) (cash : ℝ)
    (prices : String → ℝ) :
    allocation positions cash prices =
      (if 0 < cash then [("Cash", cash)] else [])
        ++ positions.filterMap (fun p =>
            if 0 < p.2 * prices p.1 then some (p.1.toUpper, p.2 * prices p.1) else none) := by
  unfold allocation
  congr 1
  induction positions with
  | nil => simp [allocParts]
  | cons p rest ih =>
    obtain ⟨s, sh⟩ := p
    by_cases h : 0 < sh * prices s
    · simp [allocParts, h, ih]
    · simp [allocParts, h, ih]

/-! ## Monte Carlo helper lemmas -/

theorem length_simulate_path (means stds : ℝ) (z : ℕ → ℝ) (value : ℝ) (n : ℕ) :
    (simulate_path means stds z value n).length = n + 1 := by
  induction n generalizing z value with
  | zero => rfl
  | succ n ih => simp [simulate_path, ih]

theorem length_mem_allPaths (initial mu sigma : ℝ) (periods sims : ℕ)
    (z : ℕ → ℕ → ℝ) :
    ∀ p ∈ allPaths initial mu sigma periods sims z, p.length = periods + 1 := by
  intro p hp
  obtain ⟨i, _, rfl⟩ := List.mem_map.1 hp
  exact length_simulate_path _ _ _ _ _

theorem minLen_rect (rows : List (List ℝ)) (L : ℕ)
    (h : ∀ r ∈ rows, r.length = L) (hne : rows ≠ []) : minLen rows = L := by
  induction rows with
  | nil => cases hne rfl
  | cons r rs ih =>
    cases rs with
    | nil => simpa [minLen] using h r (by simp)
    | cons s ss =>
      have h1 : r.length = L := h r (by simp)
      have h2 : minLen (s :: ss) = L :=
        ih (fun x hx => h x (List.mem_cons_of_mem r hx)) (by simp)
      simp [minLen, h1, h2]

theorem mcCols_eq (initial mu sigma : ℝ) (periods sims : ℕ) (z : ℕ → ℕ → ℝ)
    (hs : 1 ≤ sims) :
    mcCols initial mu sigma periods sims z
      = (List.range (periods + 1)).map
          (fun t => crossSection (allPaths initial mu sigma periods sims z) t) := by
  unfold mcCols zipCols
  have hne : allPaths initial mu sigma periods sims z ≠ [] := by
    intro h0
    have := congrArg List.length h0
    simp [allPaths] at this
    omega
  rw [minLen_rect _ (periods + 1) (length_mem_allPaths _ _ _ _ _ _) hne]
  rfl

theorem crossSection_length (paths : List (List ℝ)) (t : ℕ) :
    (crossSection paths t).length = paths.length := by
  simp [crossSection]

theorem allPaths_length (initial mu sigma : ℝ) (periods sims : ℕ)
    (z : ℕ → ℕ → ℝ) :
    (allPaths initial mu sigma periods sims z).length = sims := by
  simp [allPaths]

theorem map_mcCols_getD (initial mu sigma : ℝ) (periods sims : ℕ)
    (z : ℕ → ℕ → ℝ) (hs : 1 ≤ sims) (g : List ℝ → ℝ) (t : ℕ) (ht : t ≤ periods) :
    ((mcCols initial mu sigma periods sims z).map g).getD t 0
      = g (crossSection (allPaths initial mu sigma periods sims z) t) := by
  rw [mcCols_eq _ _ _ _ _ _ hs, List.map_map]
  have hlen : t < ((List.range (periods + 1)).map
      (g ∘ fun u => crossSection (allPaths initial mu sigma periods sims z) u)).length := by
    simp
    omega
  rw [List.getD_eq_getElem _ _ hlen, List.getElem_map, List.getElem_range]
  rfl

theorem sortAsc_perm (l : List ℝ) : (sortAsc l).Perm l :=
  List.perm_insertionSort _ l

theorem sortAsc_sorted (l : List ℝ) : (sortAsc l).Sorted (· ≤ ·) :=
  List.sorted_insertionSort _ l

theorem sortAsc_length (l : List ℝ) : (sortAsc l).length = l.length :=
  List.length_insertionSort _ l

theorem sorted_getD_mono (l : List ℝ) (h : l.Sorted (· ≤ ·)) (i j : ℕ)
    (hij : i ≤ j) (hj : j < l.length) : l.getD i 0 ≤ l.getD j 0 := by
  have hi : i < l.length := lt_of_le_of_lt hij hj
  rw [List.getD_eq_getElem _ _ hi, List.getD_eq_getElem _ _ hj]
  have := h.rel_get_of_le (a := ⟨i, hi⟩) (b := ⟨j, hj⟩) hij
  simpa using this

theorem sortAsc_pair (a b : ℝ) (h : a ≤ b) : sortAsc [a, b] = [a, b] := by
  simp [sortAsc, List.insertionSort, List.orderedInsert, h]

theorem simulate_path_zero_stds (means : ℝ) (z : ℕ → ℝ) (v : ℝ) (n : ℕ) :
    simulate_path means 0 z v n
      = (List.range (n + 1)).map (fun t => v * Real.exp means ^ t) := by
  induction n generalizing z v with
  | zero =>
    have h1 : List.range 1 = [0] := rfl
    simp [simulate_path, h1]
  | succ n ih =>
    rw [simulate_path]
    have hg : gauss means 0 (z 0) = means := by simp [gauss]
    rw [hg, ih]
    conv_rhs => rw [List.range_succ_eq_map, List.map_cons, List.map_map]
    congr 1
    · simp
    · refine List.map_congr_left (fun t _ => ?_)
      show (v * Real.exp means) * Real.exp means ^ t = v * Real.exp means ^ (t + 1)
      rw [pow_succ]
      ring

/-- C1: for `sims ≥ 1` and any `periods`, each returned band has length
`periods + 1`, and at every time index the median, p10 and p90 entries are the
order-statistic picks at indices `⌊sims/2⌋`, `⌊0.10·(sims−1)⌋` and
`⌊0.90·(sims−1)⌋` of the ascending-sorted cross-section of the `sims` path
values at that time, with no interpolation. -/
theorem monte_carlo_percentile_spec (initial mu sigma : ℝ) (periods sims : ℕ)
    (z : ℕ → ℕ → ℝ) (hs : 1 ≤ sims) :
    ((monte_carlo initial mu sigma periods sims z).median.length = periods + 1
      ∧ (monte_carlo initial mu sigma periods sims z).p10.length = periods + 1
      ∧ (monte_carlo initial mu sigma periods sims z).p90.length = periods + 1)
    ∧ (∀ t, t ≤ periods →
        (crossSection (allPaths initial mu sigma periods sims z) t).length = sims
        ∧ (sortAsc (crossSection (allPaths initial mu sigma periods sims z) t)).Perm
            (crossSection (allPaths initial mu sigma periods sims z) t)
        ∧ (sortAsc (crossSection (allPaths initial mu sigma periods sims z) t)).Sorted
            (· ≤ ·)
        ∧ (monte_carlo initial mu sigma periods sims z).median.getD t 0
            = (sortAsc (crossSection (allPaths initial mu sigma periods sims z) t)).getD
                (sims / 2) 0
        ∧ (monte_carlo initial mu sigma periods sims z).p10.getD t 0
            = (sortAsc (crossSection (allPaths initial mu sigma periods sims z) t)).getD
                ((sims - 1) / 10) 0
        ∧ (monte_carlo initial mu sigma periods sims z).p90.getD t 0
            = (sortAsc (crossSection (allPaths initial mu sigma periods sims z) t)).getD
                (9 * (sims - 1) / 10) 0) := by
  have hcols := mcCols_eq initial mu sigma periods sims z hs
  constructor
  · refine ⟨?_, ?_, ?_⟩ <;> simp [monte_carlo, hcols]
  · intro t ht
    have hcsl : (crossSection (allPaths initial mu sigma periods sims z) t).length
        = sims := by
      rw [crossSection_length, allPaths_length]
    refine ⟨hcsl, sortAsc_perm _, sortAsc_sorted _, ?_, ?_, ?_⟩
    · rw [show (monte_carlo initial mu sigma periods sims z).median
          = (mcCols initial mu sigma periods sims z).map
              (fun col => (sortAsc col).getD (medianIdx col.length) 0) from rfl,
        map_mcCols_getD initial mu sigma periods sims z hs _ t ht]
      rw [hcsl]
      rfl
    · rw [show (monte_carlo initial mu sigma periods sims z).p10
          = (mcCols initial mu sigma periods sims z).map
              (fun col => (sortAsc col).getD (p10Idx col.length) 0) from rfl,
        map_mcCols_getD initial mu sigma periods sims z hs _ t ht]
      rw [hcsl]
      rfl
    · rw [show (monte_carlo initial mu sigma periods sims z).p90
          = (mcCols initial mu sigma periods sims z).map
              (fun col => (sortAsc col).getD (p90Idx col.length) 0) from rfl,
        map_mcCols_getD initial mu sigma periods sims z hs _ t ht]
      rw [hcsl]
      rfl

/-- Witness for C1: one simulation and zero periods give a median band of
length one. -/
theorem monte_carlo_percentile_spec_witness :
    (monte_carlo 1 0 0 0 1 (fun _ _ => 0)).median.length = 0 + 1 :=
  (monte_carlo_percentile_spec 1 0 0 0 1 (fun _ _ => 0) (by decide)).1.1

/-- C9: with `sigma = 0` every simulated path is deterministic: its value at
step `t` is `initial · exp((mu − 0.5·σ²)·dt)^t` with `dt = 1/12`, and the
median, p10 and p90 bands coincide. -/
theorem monte_carlo_sigma_zero_spec (initial mu : ℝ) (periods sims : ℕ)
    (z : ℕ → ℕ → ℝ) (hs : 1 ≤ sims) :
    (∀ p ∈ allPaths initial mu 0 periods sims z, ∀ t, t ≤ periods →
        p.getD t 0 = initial * Real.exp ((mu - 0.5 * 0 ^ 2) * (1 / 12)) ^ t)
    ∧ (monte_carlo initial mu 0 periods sims z).median
        = (monte_carlo initial mu 0 periods sims z).p10
    ∧ (monte_carlo initial mu 0 periods sims z).median
        = (monte_carlo initial mu 0 periods sims z).p90 := by
  have hm : (mu - 0.5 * 0 ^ 2) * (1 / 12) = mcMeans mu 0 := by
    simp [mcMeans]
  have hstds : mcStds 0 = 0 := by simp [mcStds]
  have hpath : ∀ i : ℕ, simulate_path (mcMeans mu 0) (mcStds 0) (z i) initial periods
      = (List.range (periods + 1)).map (fun t => initial * Real.exp (mcMeans mu 0) ^ t) := by
    intro i
    rw [hstds]
    exact simulate_path_zero_stds _ _ _ _
  have hL : allPaths initial mu 0 periods sims z
      = List.replicate sims ((List.range (periods + 1)).map
          (fun t => initial * Real.exp (mcMeans mu 0) ^ t)) := by
    unfold allPaths
    rw [List.map_congr_left (fun i _ => hpath i), List.map_const', List.length_range]
  have hcols : mcCols initial mu 0 periods sims z
      = (List.range (periods + 1)).map
          (fun t => List.replicate sims (initial * Real.exp (mcMeans mu 0) ^ t)) := by
    rw [mcCols_eq _ _ _ _ _ _ hs, hL]
    refine List.map_congr_left (fun t htm => ?_)
    rw [crossSection, List.map_replicate]
    refine congrArg _ ?_
    rw [List.getD_eq_getElem _ _ (by simpa using List.mem_range.1 htm),
      List.getElem_map, List.getElem_range]
  have key : ∀ g : ℕ → ℕ, g sims < sims →
      (mcCols initial mu 0 periods sims z).map
          (fun col => (sortAsc col).getD (g col.length) 0)
        = (List.range (periods + 1)).map
            (fun t => initial * Real.exp (mcMeans mu 0) ^ t) := by
    intro g hg
    rw [hcols, List.map_map]
    refine List.map_congr_left (fun t _ => ?_)
    show (sortAsc (List.replicate sims (initial * Real.exp (mcMeans mu 0) ^ t))).getD
        (g (List.replicate sims (initial * Real.exp (mcMeans mu 0) ^ t)).length) 0
      = initial * Real.exp (mcMeans mu 0) ^ t
    have hsorted : (List.replicate sims (initial * Real.exp (mcMeans mu 0) ^ t)).Sorted
        (· ≤ ·) := List.pairwise_replicate.2 (Or.inr le_rfl)
    rw [sortAsc, hsorted.insertionSort_eq, List.length_replicate,
      List.getD_eq_getElem _ _ (by rw [List.length_replicate]; exact hg),
      List.getElem_replicate]
  refine ⟨?_, ?_, ?_⟩
  · intro p hp t ht
    rw [hL] at hp
    rw [List.eq_of_mem_replicate hp]
    rw [List.getD_eq_getElem _ _ (by simp; omega), List.getElem_map,
      List.getElem_range, hm]
  · exact (key medianIdx (by unfold medianIdx; omega)).trans
      (key p10Idx (by unfold p10Idx; omega)).symm
  · exact (key medianIdx (by unfold medianIdx; omega)).trans
      (key p90Idx (by unfold p90Idx; omega)).symm

/-- Witness for C9: with one simulation, zero volatility and one period, the
median and p10 bands are equal. -/
theorem monte_carlo_sigma_zero_spec_witness :
    (monte_carlo 1 0 0 1 1 (fun _ _ => 0)).median
      = (monte_carlo 1 0 0 1 1 (fun _ _ => 0)).p10 :=
  (monte_carlo_sigma_zero_spec 1 0 1 1 (fun _ _ => 0) (by decide)).2.1

/-- C10 counterexample: with `simulations = 2` the median picks sorted index
`2/2 = 1` while p90 picks sorted index `⌊0.9·1⌋ = 0`, so at `periods = 1`,
`sigma = 1` and distinct draws for the two paths the p90 band falls strictly
below the median band at time 1, refuting `median ≤ p90`. -/
theorem monte_carlo_band_order_counterexample :
    (monte_carlo 1 0 1 1 2 (fun i _ => (i : ℝ))).p90.getD 1 0
      < (monte_carlo 1 0 1 1 2 (fun i _ => (i : ℝ))).median.getD 1 0 := by
  have hs0 : (0 : ℝ) < mcStds 1 := by
    rw [mcStds, one_mul]
    exact Real.sqrt_pos.2 (by norm_num)
  have hab : 1 * Real.exp (gauss (mcMeans 0 1) (mcStds 1) ((0 : ℕ) : ℝ))
      < 1 * Real.exp (gauss (mcMeans 0 1) (mcStds 1) ((1 : ℕ) : ℝ)) := by
    rw [one_mul, one_mul, Real.exp_lt_exp, gauss, gauss]
    push_cast
    nlinarith [hs0]
  have e2 : (monte_carlo 1 0 1 1 2 (fun i _ => (i : ℝ))).p90
      = [(sortAsc [(1 : ℝ), 1]).getD 0 0,
          (sortAsc [1 * Real.exp (gauss (mcMeans 0 1) (mcStds 1) ((0 : ℕ) : ℝ)),
            1 * Real.exp (gauss (mcMeans 0 1) (mcStds 1) ((1 : ℕ) : ℝ))]).getD 0 0] := rfl
  have e3 : (monte_carlo 1 0 1 1 2 (fun i _ => (i : ℝ))).median
      = [(sortAsc [(1 : ℝ), 1]).getD 1 0,
          (sortAsc [1 * Real.exp (gauss (mcMeans 0 1) (mcStds 1) ((0 : ℕ) : ℝ)),
            1 * Real.exp (gauss (mcMeans 0 1) (mcStds 1) ((1 : ℕ) : ℝ))]).getD 1 0] := rfl
  have hsort : sortAsc [1 * Real.exp (gauss (mcMeans 0 1) (mcStds 1) ((0 : ℕ) : ℝ)),
        1 * Real.exp (gauss (mcMeans 0 1) (mcStds 1) ((1 : ℕ) : ℝ))]
      = [1 * Real.exp (gauss (mcMeans 0 1) (mcStds 1) ((0 : ℕ) : ℝ)),
          1 * Real.exp (gauss (mcMeans 0 1) (mcStds 1) ((1 : ℕ) : ℝ))] :=
    sortAsc_pair _ _ (le_of_lt hab)
  rw [e2, e3]
  simp only [List.getD, List.getElem?_cons_succ, List.getElem?_cons_zero, Option.getD_some]
  rw [hsort]
  simpa using hab

/-- C10 (amended): for `sims ≥ 1` the bands satisfy `p10 ≤ median` pointwise;
`median ≤ p90` also holds pointwise for every `sims ≠ 2` (at `sims = 2` the
median index `1` exceeds the p90 index `0`, so the inequality can fail). -/
theorem monte_carlo_band_order_spec (initial mu sigma : ℝ) (periods sims : ℕ)
    (z : ℕ → ℕ → ℝ) (hs : 1 ≤ sims) :
    ∀ t, t ≤ periods →
      (monte_carlo initial mu sigma periods sims z).p10.getD t 0
          ≤ (monte_carlo initial mu sigma periods sims z).median.getD t 0
      ∧ (sims ≠ 2 →
          (monte_carlo initial mu sigma periods sims z).median.getD t 0
            ≤ (monte_carlo initial mu sigma periods sims z).p90.getD t 0) := by
  intro t ht
  have hcsl : (crossSection (allPaths initial mu sigma periods sims z) t).length
      = sims := by
    rw [crossSection_length, allPaths_length]
  have hsl : (sortAsc (crossSection (allPaths initial mu sigma periods sims z) t)).length
      = sims := by
    rw [sortAsc_length, hcsl]
  have hmed : (monte_carlo initial mu sigma periods sims z).median.getD t 0
      = (sortAsc (crossSection (allPaths initial mu sigma periods sims z) t)).getD
          (medianIdx sims) 0 := by
    rw [show (monte_carlo initial mu sigma periods sims z).median
        = (mcCols initial mu sigma periods sims z).map
            (fun col => (sortAsc col).getD (medianIdx col.length) 0) from rfl,
      map_mcCols_getD initial mu sigma periods sims z hs _ t ht, hcsl]
  have hp10 : (monte_carlo initial mu sigma periods sims z).p10.getD t 0
      = (sortAsc (crossSection (allPaths initial mu sigma periods sims z) t)).getD
          (p10Idx sims) 0 := by
    rw [show (monte_carlo initial mu sigma periods sims z).p10
        = (mcCols initial mu sigma periods sims z).map
            (fun col => (sortAsc col).getD (p10Idx col.length) 0) from rfl,
      map_mcCols_getD initial mu sigma periods sims z hs _ t ht, hcsl]
  have hp90 : (monte_carlo initial mu sigma periods sims z).p90.getD t 0
      = (sortAsc (crossSection (allPaths initial mu sigma periods sims z) t)).getD
          (p90Idx sims) 0 := by
    rw [show (monte_carlo initial mu sigma periods sims z).p90
        = (mcCols initial mu sigma periods sims z).map
            (fun col => (sortAsc col).getD (p90Idx col.length) 0) from rfl,
      map_mcCols_getD initial mu sigma periods sims z hs _ t ht, hcsl]
  constructor
  · rw [hmed, hp10]
    exact sorted_getD_mono _ (sortAsc_sorted _) _ _
      (by unfold p10Idx medianIdx; omega) (by rw [hsl]; unfold medianIdx; omega)
  · intro h2
    rw [hmed, hp90]
    exact sorted_getD_mono _ (sortAsc_sorted _) _ _
      (by unfold medianIdx p90Idx; omega) (by rw [hsl]; unfold p90Idx; omega)

/-- Witness for the amended C10 at one simulation and zero periods. -/
theorem monte_carlo_band_order_spec_witness :
    (monte_carlo 1 0 0 0 1 (fun _ _ => 1)).p10.getD 0 0
      ≤ (monte_carlo 1 0 0 0 1 (fun _ _ => 1)).median.getD 0 0 :=
  ((monte_carlo_band_order_spec 1 0 0 0 1 (fun _ _ => 1) (by decide)) 0 (by decide)).1

end FTPI
